import Mathlib

/-!
Verification of the unified-diff engine and patch-stream tokenizer of
`ai_patch.py` (repository CodeFlatter).  Lines of a file or of a patch are
modelled as lists of characters, retaining their terminators, exactly as
Python's `splitlines(keepends=True)` produces them.  The module-level
regular expressions of the source are modelled as deterministic
parsers/matchers over such character lists; the determinisation is
equivalence-preserving because in each pattern every greedy repetition is
followed by a literal that cannot occur inside the repeated class.
-/

namespace AiPatch

/-- One line of text, terminator included (an element of the list that
`splitlines(keepends=True)` returns). -/
abbrev Line := List Char

/-- Python's ASCII whitespace, as matched by `\s` in the source's patterns and
stripped by `str.strip()`. -/
def isPySpace (c : Char) : Bool :=
  c = ' ' || c = '\t' || c = '\n' || c = '\r' || c = '\x0b' || c = '\x0c'

/-- Value of a run of decimal digits, as computed by Python's `int(...)` on the
captured group. -/
def digitsToNat (ds : List Char) : Nat :=
  ds.foldl (fun a c => 10 * a + (c.toNat - 48)) 0

/-- Greedily read `\d+`: fails if no leading digit, otherwise returns the value
and the rest of the line. -/
def parseNum (l : List Char) : Option (Nat × List Char) :=
  if (l.takeWhile Char.isDigit).isEmpty then none
  else some (digitsToNat (l.takeWhile Char.isDigit), l.dropWhile Char.isDigit)

/-- Read `(?:,(\d+))?\s` — an optional `,count` followed by one whitespace
character.  A `,` not followed by digits (or the count not followed by
whitespace) fails the whole pattern, exactly as the regex does: dropping the
optional group would force `\s` to match the `,` itself, which is impossible. -/
def parseCountSpace : List Char → Option (Option Nat × List Char)
  | ',' :: r =>
    match parseNum r with
    | some (n, c :: r2) => if isPySpace c then some (some n, r2) else none
    | _ => none
  | c :: r => if isPySpace c then some (none, r) else none
  | [] => none

/-- The four captured groups of `HUNK_HEADER_RE`
(`^@@\s-(\d+)(?:,(\d+))?\s\+(\d+)(?:,(\d+))?\s@@`, line 32 of ai_patch.py). -/
structure HunkHeader where
  oldStart : Nat
  oldCount : Option Nat
  newStart : Nat
  newCount : Option Nat
deriving DecidableEq, Repr

/-- `HUNK_HEADER_RE.match(line)`: anchored at the start of the line, trailing
text after the closing `@@` is ignored. -/
def parseHunkHeader : Line → Option HunkHeader
  | '@' :: '@' :: c :: '-' :: r =>
    if isPySpace c then
      match parseNum r with
      | none => none
      | some (os, r1) =>
        match parseCountSpace r1 with
        | none => none
        | some (oc, r2) =>
          match r2 with
          | '+' :: r3 =>
            match parseNum r3 with
            | none => none
            | some (ns, r4) =>
              match parseCountSpace r4 with
              | none => none
              | some (nc, r5) =>
                match r5 with
                | '@' :: '@' :: _ => some ⟨os, oc, ns, nc⟩
                | _ => none
          | _ => none
    else none
  | _ => none

/-- The only exception `apply_unified_diff_logic` can raise: the `ValueError`
of line 119 ("Hunk ... attempts to patch earlier in file than previous
hunk"). -/
inductive PatchError
  | outOfOrderHunk
deriving DecidableEq, Repr

/-- Position of the interpreter inside the patch text: scanning for the next
hunk header (outer `while`, lines 95–107), or inside a hunk body (inner
`while`, lines 128–159). -/
inductive Mode
  | scan
  | body
deriving DecidableEq, Repr

/-- The combined loop of `apply_unified_diff_logic` (lines 94–159), one step
per patch line.  In `scan` mode the source skips `---`/`+++`/`index ` preamble
and any other non-header line alike (lines 99–107; none of those lines can
match the header pattern, which requires a leading `@`), so both cases are one
branch here.  A hunk-body line that matches no marker ends the inner loop
(line 157) and is then skipped by the outer loop, i.e. the interpreter returns
to `scan` mode consuming the line. -/
def applyLoop (original : List Line) : List Line → Mode → Nat → List Line →
    Except PatchError (List Line)
  | [], _, src, out => .ok (out ++ original.drop src)
  | pl :: rest, mode, src, out =>
    match parseHunkHeader pl with
    | some g =>
      -- lines 110–123: `target_src_idx = old_start - 1 if old_start > 0 else 0`
      -- (truncated subtraction on Nat is exactly this), the ordering check,
      -- and `output.extend(original_lines[src_idx:target_src_idx])`.
      let target := g.oldStart - 1
      if target < src then
        .error .outOfOrderHunk
      else
        applyLoop original rest .body target
          (out ++ (original.drop src).take (target - src))
    | none =>
      match mode with
      | .scan => applyLoop original rest .scan src out
      | .body =>
        if pl.head? = some ' ' then
          -- lines 134–139: append original[src_idx] only when in range; the
          -- cursor advances unconditionally.
          applyLoop original rest .body (src + 1)
            (out ++ (original.drop src).take 1)
        else if pl.head? = some '-' then
          -- lines 140–142
          applyLoop original rest .body (src + 1) out
        else if pl.head? = some '+' then
          -- lines 143–145: `output.append(pl[1:])`
          applyLoop original rest .body src (out ++ [pl.drop 1])
        else if pl.head? = some '\\' then
          -- lines 146–148
          applyLoop original rest .body src out
        else if pl.all isPySpace then
          -- lines 149–152: `pl.strip() == ''`
          applyLoop original rest .body src out
        else
          -- lines 153–157: unrecognized line breaks the hunk body
          applyLoop original rest .scan src out

/-- `apply_unified_diff_logic(original_lines, patch_text)` (lines 85–163),
with the patch text already split into lines. -/
def applyUnifiedDiffLogic (original patchLines : List Line) :
    Except PatchError (List Line) :=
  applyLoop original patchLines .scan 0 []

/-- Net effect on `src_idx` of interpreting the body lines of one hunk
(lines 128–159): a context or removed line advances the cursor by one, added
lines, `\`-markers and blank lines leave it unchanged, and a hunk header or an
unrecognized line ends the body with the cursor frozen.  Derived line by line
from the same branches as `applyLoop`. -/
def cursorAfterBody : Nat → List Line → Nat
  | src, [] => src
  | src, pl :: rest =>
    match parseHunkHeader pl with
    | some _ => src
    | none =>
      if pl.head? = some ' ' then cursorAfterBody (src + 1) rest
      else if pl.head? = some '-' then cursorAfterBody (src + 1) rest
      else if pl.head? = some '+' then cursorAfterBody src rest
      else if pl.head? = some '\\' then cursorAfterBody src rest
      else if pl.all isPySpace then cursorAfterBody src rest
      else src

/-- Domain predicate for the context-preservation claim: every hunk body line
of the diff block is a `Context` line (leading space); lines outside hunk
bodies (before the first header) are unconstrained, as they are skipped. -/
def ctxOnlyB : Mode → List Line → Bool
  | _, [] => true
  | m, pl :: rest =>
    match parseHunkHeader pl with
    | some _ => ctxOnlyB .body rest
    | none =>
      match m with
      | .scan => ctxOnlyB .scan rest
      | .body => pl.head? = some ' ' && ctxOnlyB .body rest

/-- Two patch lines that the applier cannot distinguish: either literally
equal, or both hunk headers with the same `old_start` (the only header field
the source reads — `old_count` is parsed but commented out at line 111, and
the `+new_start,new_count` side is never read). -/
def headerEquiv (l1 l2 : Line) : Prop :=
  l1 = l2 ∨ ∃ g1 g2, parseHunkHeader l1 = some g1 ∧
    parseHunkHeader l2 = some g2 ∧ g1.oldStart = g2.oldStart

/-! ### The patch-stream tokenizer (`apply_patches` and `read_until`) -/

/-- Keyword of `PATCH_START_RE` (line 28). -/
def kwPatchStart : List Char := "patch-start:".toList

/-- Keyword of `REPLACE_START_RE` (line 29). -/
def kwReplaceStart : List Char := "replace-start:".toList

/-- Keyword of `DELETE_RE` (line 30). -/
def kwDelete : List Char := "delete:".toList

/-- Shared shape `^##\s*` of the four marker patterns: two hash signs and then
greedily skipped whitespace (the keyword that follows never begins with a
whitespace character, so maximal munch is forced). -/
def afterHashes : Line → Option (List Char)
  | '#' :: '#' :: rest => some (rest.dropWhile isPySpace)
  | _ => none

/-- Case-insensitive literal match (the patterns carry `re.I` and the
keywords are lowercase ASCII): strips `ks` from the front of `w`, comparing
lowercased characters, and returns the rest. -/
def stripCI : List Char → List Char → Option (List Char)
  | [], w => some w
  | _ :: _, [] => none
  | k :: ks, c :: cs => if c.toLower = k then stripCI ks cs else none

/-- `RE.match(line)` for the three start/delete markers
(`^##\s*KEYWORD\s*([^\s]+)`): returns the captured path — the maximal run of
non-whitespace characters after the keyword — or `none` when the line does not
match (including when the path would be empty, since `[^\s]+` needs at least
one character). -/
def markerPath (kw : List Char) (l : Line) : Option Line :=
  match afterHashes l with
  | none => none
  | some r =>
    match stripCI kw r with
    | none => none
    | some r2 =>
      if ((r2.dropWhile isPySpace).takeWhile fun c => !isPySpace c).isEmpty
      then none
      else some ((r2.dropWhile isPySpace).takeWhile fun c => !isPySpace c)

/-- `END_RE.match(line)` (`^##\s*(patch|replace)-end`, line 31). -/
def isEndMarker (l : Line) : Bool :=
  match afterHashes l with
  | none => false
  | some r => (stripCI "patch-end".toList r).isSome ||
      (stripCI "replace-end".toList r).isSome

/-- A line opening a delimited block: `PATCH_START_RE` or `REPLACE_START_RE`
matches it. -/
def isStartMarker (l : Line) : Bool :=
  (markerPath kwPatchStart l).isSome || (markerPath kwReplaceStart l).isSome

/-- The typed blocks the tokenizer emits (spec §3): a unified diff to apply, a
whole-file replacement, or a deletion.  Block bodies keep the collected lines
(`read_until` joins them back into one string before handing them on). -/
inductive PatchBlock
  | diffPatch (path : Line) (body : List Line)
  | replace (path : Line) (content : List Line)
  | delete (path : Line)
deriving DecidableEq, Repr

/-- The `ValueError("Unterminated patch block")` of `read_until` (line 61). -/
inductive TokError
  | unterminatedBlock
deriving DecidableEq, Repr

/-- Tokenizer position: scanning between blocks, or inside a started block
collecting its lines until the end marker (`read_until`); `isPatch`
distinguishes a `patch-start` block from a `replace-start` one. -/
inductive TokMode
  | scan
  | inBlock (isPatch : Bool) (path : Line) (acc : List Line)

/-- Prepend an emitted block to a tokenizer result. -/
def consBlock (b : PatchBlock) (p : List PatchBlock × Option TokError) :
    List PatchBlock × Option TokError :=
  (b :: p.1, p.2)

/-- The scanning loop of `apply_patches` (lines 37–52) fused with `read_until`
(lines 54–61), one step per input line.  The emitted blocks are listed in
document order; reaching end-of-input inside a block is the
`ValueError("Unterminated patch block")`, which aborts the pass while the
blocks already emitted (and already acted on by the caller) stand. -/
def tokLoop : List Line → TokMode → List PatchBlock × Option TokError
  | [], .scan => ([], none)
  | [], .inBlock _ _ _ => ([], some .unterminatedBlock)
  | l :: rest, .scan =>
    match markerPath kwPatchStart l with
    | some p => tokLoop rest (.inBlock true p [])
    | none =>
      match markerPath kwReplaceStart l with
      | some p => tokLoop rest (.inBlock false p [])
      | none =>
        match markerPath kwDelete l with
        | some p => consBlock (.delete p) (tokLoop rest .scan)
        | none => tokLoop rest .scan
  | l :: rest, .inBlock isP p acc =>
    if isEndMarker l then
      consBlock (if isP then .diffPatch p acc else .replace p acc)
        (tokLoop rest .scan)
    else
      tokLoop rest (.inBlock isP p (acc ++ [l]))

/-- Tokenization of a whole input (the input text already split into lines,
as `apply_patches` does at line 35). -/
def tokenize (lines : List Line) : List PatchBlock × Option TokError :=
  tokLoop lines .scan

/-- The premise of the unterminated-block claim: the line sequence contains a
`patch-start`/`replace-start` marker line with no terminator line anywhere
after it. -/
def unterminatedAfter (post : List Line) : Prop :=
  ∃ a m c, post = a ++ m :: c ∧ isStartMarker m = true ∧
    ∀ l ∈ c, isEndMarker l = false

end AiPatch

namespace AiPatch

/-! ### Helper lemmas -/

/-- A line whose first character is not `@` cannot match the hunk-header
pattern. -/
theorem parseHunkHeader_none_of_head (pl : Line) (c : Char)
    (hc : pl.head? = some c) (hne : c ≠ '@') : parseHunkHeader pl = none := by
  cases pl with
  | nil => simp at hc
  | cons c0 tl =>
    rw [List.head?_cons, Option.some.injEq] at hc
    subst hc
    rw [parseHunkHeader.eq_def]
    split
    · rename_i heq
      rw [List.cons.injEq] at heq
      exact absurd heq.1 hne
    · rfl

/-- A hunk body made only of `Added` lines appends their texts (marker
stripped) to the output and leaves the cursor alone. -/
theorem applyLoop_plus : ∀ (original body : List Line),
    (∀ l ∈ body, l.head? = some '+') → ∀ src out,
    applyLoop original body .body src out =
      .ok (out ++ body.map (List.drop 1) ++ original.drop src) := by
  intro original body
  induction body with
  | nil => intro _ src out; simp [applyLoop]
  | cons pl rest ih =>
    intro hb src out
    have hh : pl.head? = some '+' := hb pl (List.mem_cons_self pl rest)
    have hp : parseHunkHeader pl = none :=
      parseHunkHeader_none_of_head pl '+' hh (by decide)
    rw [applyLoop, hp]
    simp only [hh]
    rw [if_neg (by decide), if_neg (by decide), if_pos trivial,
      ih (fun l hl => hb l (List.mem_cons_of_mem pl hl)) src (out ++ [pl.drop 1])]
    simp

/-- A hunk body made only of `Removed` lines advances the cursor by its length
and adds nothing to the output. -/
theorem applyLoop_dashes : ∀ (original body : List Line),
    (∀ l ∈ body, l.head? = some '-') → ∀ src out,
    applyLoop original body .body src out =
      .ok (out ++ original.drop (src + body.length)) := by
  intro original body
  induction body with
  | nil => intro _ src out; simp [applyLoop]
  | cons pl rest ih =>
    intro hb src out
    have hh : pl.head? = some '-' := hb pl (List.mem_cons_self pl rest)
    have hp : parseHunkHeader pl = none :=
      parseHunkHeader_none_of_head pl '-' hh (by decide)
    rw [applyLoop, hp]
    simp only [hh]
    rw [if_neg (by decide), if_pos trivial,
      ih (fun l hl => hb l (List.mem_cons_of_mem pl hl)) (src + 1) out]
    have : src + 1 + rest.length = src + (rest.length + 1) := by omega
    rw [this]
    rfl

/-! ### Claim theorems -/

/-- C1, counterexample: the pure-insertion hunk `@@ -1,0 +1,1 @@` with body
`+x\n` on `["a\n","b\n"]` satisfies the claim's premise (`old_count = 0`, all
body lines `Added`, `old_start = 1`), but the code inserts before index 0 and
returns `["x\n","a\n","b\n"]`, not `original[0:1] ++ ["x\n"] ++ original[1:]`
as the claim states. -/
theorem c1_pure_insertion_counterexample :
    parseHunkHeader ("@@ -1,0 +1,1 @@\n").toList = some ⟨1, some 0, 1, some 1⟩ ∧
    applyUnifiedDiffLogic ["a\n".toList, "b\n".toList]
      [("@@ -1,0 +1,1 @@\n").toList, "+x\n".toList] =
      .ok ["x\n".toList, "a\n".toList, "b\n".toList] ∧
    ["x\n".toList, "a\n".toList, "b\n".toList] ≠
      (["a\n".toList, "b\n".toList].take 1 ++ ["x\n".toList] ++
        ["a\n".toList, "b\n".toList].drop 1) :=
  ⟨rfl, rfl, by decide⟩

/-- C1, amended: a single hunk whose header parses with `old_start = k` and
`old_count = 0` and whose body contains only `Added` lines yields
`original[0:t] ++ added ++ original[t:]` with `t = max(k-1,0)` (truncated
subtraction) — one position to the left of the claimed `original[0:k] ++ added
++ original[k:]` whenever `k ≥ 1`; the two agree only at `k = 0` or when the
insertion point is at/after the end of the file. -/
theorem c1_pure_insertion_amended (original : List Line) (hdr : Line)
    (g : HunkHeader) (body : List Line)
    (hg : parseHunkHeader hdr = some g) (_hc : g.oldCount = some 0)
    (hb : ∀ l ∈ body, l.head? = some '+') :
    applyUnifiedDiffLogic original (hdr :: body) =
      .ok (original.take (g.oldStart - 1) ++ body.map (List.drop 1) ++
        original.drop (g.oldStart - 1)) := by
  unfold applyUnifiedDiffLogic
  rw [applyLoop, hg]
  dsimp only
  rw [if_neg (Nat.not_lt_zero _), applyLoop_plus original body hb]
  simp

/-- C1, witness for the amended theorem: inserting `x\n` with header
`@@ -3,0 +3,1 @@` after the two-line original appends it at the tail. -/
theorem c1_pure_insertion_witness :
    applyUnifiedDiffLogic ["a\n".toList, "b\n".toList]
      [("@@ -3,0 +3,1 @@\n").toList, "+x\n".toList] =
      .ok ["a\n".toList, "b\n".toList, "x\n".toList] := by
  have h := c1_pure_insertion_amended ["a\n".toList, "b\n".toList]
    ("@@ -3,0 +3,1 @@\n").toList ⟨3, some 0, 3, some 1⟩ ["+x\n".toList]
    rfl rfl (by decide)
  simpa using h

/-- C2, counterexample: with an empty original, interpreting the context line
`" x\n"` from cursor 0 is not a state no-op — the cursor advances, so a
following hunk with `old_start = 1` (target cursor 0) now fails the ordering
check, while without the context line the same hunk is accepted.  Under the
claim ("the source cursor is left unchanged") both runs would agree. -/
theorem c2_context_past_end_counterexample :
    applyLoop [] [" x\n".toList, ("@@ -1,1 +1,1 @@\n").toList] .body 0 [] =
      .error .outOfOrderHunk ∧
    applyLoop [] [("@@ -1,1 +1,1 @@\n").toList] .body 0 [] = .ok [] :=
  ⟨rfl, rfl⟩

/-- C2, amended: a `Context` line met with the cursor at or past the end of
the original contributes nothing to the output, but the cursor is still
advanced by one (line 139 runs unconditionally); only the output is
unaffected. -/
theorem c2_context_past_end_amended (original : List Line) (pl : Line)
    (rest : List Line) (src : Nat) (out : List Line)
    (hsrc : original.length ≤ src) (hpl : pl.head? = some ' ') :
    applyLoop original (pl :: rest) .body src out =
      applyLoop original rest .body (src + 1) out := by
  rw [applyLoop, parseHunkHeader_none_of_head pl ' ' hpl (by decide)]
  simp only [hpl]
  rw [if_pos trivial, List.drop_eq_nil_of_le hsrc]
  simp

/-- C2, witness for the amended theorem, at a concrete exhausted original. -/
theorem c2_context_past_end_witness :
    applyLoop ["a\n".toList] [" b\n".toList] .body 1 [] =
      applyLoop ["a\n".toList] [] .body 2 [] :=
  c2_context_past_end_amended ["a\n".toList] " b\n".toList [] 1 []
    (by decide) rfl

/-- C5, confirmed: a single hunk with `old_start = k+1` whose body consists of
`Removed` lines for the `n` original lines at indices `[k, k+n)` deletes
exactly that range: the result is `original[0:k] ++ original[k+n:]`. -/
theorem c5_pure_deletion (original : List Line) (hdr : Line) (g : HunkHeader)
    (k n : Nat) (hg : parseHunkHeader hdr = some g) (hk : g.oldStart = k + 1)
    (hcov : k + n ≤ original.length) :
    applyUnifiedDiffLogic original
      (hdr :: ((original.drop k).take n).map (fun l => '-' :: l)) =
      .ok (original.take k ++ original.drop (k + n)) := by
  unfold applyUnifiedDiffLogic
  rw [applyLoop, hg]
  dsimp only
  rw [hk, Nat.add_sub_cancel, if_neg (Nat.not_lt_zero _),
    applyLoop_dashes original _ ?_]
  · have hlen : (((original.drop k).take n).map (fun l => '-' :: l)).length = n := by
      simp only [List.length_map, List.length_take, List.length_drop]
      omega
    rw [hlen]
    simp
  · intro l hl
    rw [List.mem_map] at hl
    obtain ⟨a, -, rfl⟩ := hl
    rfl

/-- C5, witness: deleting the middle line of a three-line file. -/
theorem c5_pure_deletion_witness :
    applyUnifiedDiffLogic ["a\n".toList, "b\n".toList, "c\n".toList]
      [("@@ -2,1 +2,1 @@\n").toList, "-b\n".toList] =
      .ok ["a\n".toList, "c\n".toList] := by
  have h := c5_pure_deletion ["a\n".toList, "b\n".toList, "c\n".toList]
    ("@@ -2,1 +2,1 @@\n").toList ⟨2, some 1, 2, some 1⟩ 1 1 rfl rfl (by decide)
  simpa using h

/-- C6, confirmed: for every original and every diff text the applier either
succeeds or fails with the ordering error — it has no out-of-bounds failure
mode (the only index into `original`, line 138, sits under the `src_idx <
len(original_lines)` guard, and slices clamp); and a `Context` or `Removed`
body line reached with the cursor at or past the end of the original is
processed without any failure and contributes nothing to the output — the
interpreter simply moves on (with the cursor advanced past the end). -/
theorem c6_tolerant_tail :
    (∀ (original patch : List Line),
      applyUnifiedDiffLogic original patch = .error .outOfOrderHunk ∨
      ∃ out, applyUnifiedDiffLogic original patch = .ok out) ∧
    (∀ (original : List Line) (pl : Line) (rest : List Line) (src : Nat)
      (out : List Line), original.length ≤ src →
      (pl.head? = some ' ' ∨ pl.head? = some '-') →
      applyLoop original (pl :: rest) .body src out =
        applyLoop original rest .body (src + 1) out) := by
  constructor
  · intro original patch
    cases hres : applyUnifiedDiffLogic original patch with
    | ok out => exact Or.inr ⟨out, rfl⟩
    | error e => cases e; exact Or.inl rfl
  · intro original pl rest src out hsrc hpl
    cases hpl with
    | inl h =>
      rw [applyLoop, parseHunkHeader_none_of_head pl ' ' h (by decide)]
      simp only [h]
      rw [if_pos trivial, List.drop_eq_nil_of_le hsrc]
      simp
    | inr h =>
      rw [applyLoop, parseHunkHeader_none_of_head pl '-' h (by decide)]
      simp only [h]
      rw [if_neg (by decide), if_pos trivial]

/-- C6, witness: a trailing `Removed` line beyond the end of a one-line
original is a silent cursor bump. -/
theorem c6_tolerant_tail_witness :
    applyLoop ["a\n".toList] ["-b\n".toList] .body 1 [] =
      applyLoop ["a\n".toList] [] .body 2 [] :=
  c6_tolerant_tail.2 ["a\n".toList] "-b\n".toList [] 1 [] (by decide)
    (Or.inr rfl)

/-- C7, confirmed: the round-trip example — original `["a\n","b\n","c\n"]`,
hunk header `@@ -2,1 +2,2 @@`, body `[" b\n", "+x\n"]` — produces
`["a\n","b\n","x\n","c\n"]`. -/
theorem c7_round_trip_example :
    applyUnifiedDiffLogic ["a\n".toList, "b\n".toList, "c\n".toList]
      [("@@ -2,1 +2,2 @@\n").toList, " b\n".toList, "+x\n".toList] =
      .ok ["a\n".toList, "b\n".toList, "x\n".toList, "c\n".toList] := rfl

/-- C9, confirmed: an exactly empty hunk-body line (bare `"\n"`) is a silent
no-op — no output, no cursor change — and interpretation continues with the
next body line, unlike an `Unrecognized` line, which ends the hunk body.  The
second conjunct shows the `+x\n` line after a blank line still being applied;
the third shows the same diff with `q\n` (unrecognized) in place of the blank
line dropping the `+x\n` insertion. -/
theorem c9_empty_line_noop :
    (∀ (original rest : List Line) (src : Nat) (out : List Line),
      applyLoop original (['\n'] :: rest) .body src out =
        applyLoop original rest .body src out) ∧
    applyUnifiedDiffLogic ["a\n".toList, "b\n".toList]
      [("@@ -1,2 +1,3 @@\n").toList, " a\n".toList, "\n".toList,
        "+x\n".toList] =
      .ok ["a\n".toList, "x\n".toList, "b\n".toList] ∧
    applyUnifiedDiffLogic ["a\n".toList, "b\n".toList]
      [("@@ -1,2 +1,3 @@\n").toList, " a\n".toList, "q\n".toList,
        "+x\n".toList] =
      .ok ["a\n".toList, "b\n".toList] := by
  refine ⟨?_, rfl, rfl⟩
  intro original rest src out
  rw [applyLoop, parseHunkHeader_none_of_head ['\n'] '\n' rfl (by decide),
    if_neg (by decide), if_neg (by decide), if_neg (by decide),
    if_neg (by decide), if_pos (by decide)]

/-- In `scan` mode, lines that are not hunk headers are skipped without any
state change. -/
theorem applyLoop_skip_scan (original : List Line) : ∀ (p : List Line),
    (∀ l ∈ p, parseHunkHeader l = none) → ∀ tail src out,
    applyLoop original (p ++ tail) .scan src out =
      applyLoop original tail .scan src out := by
  intro p
  induction p with
  | nil => intro _ tail src out; rfl
  | cons l p' ih =>
    intro hp tail src out
    rw [List.cons_append]
    simp only [applyLoop, hp l (List.mem_cons_self l p')]
    exact ih (fun x hx => hp x (List.mem_cons_of_mem l hx)) tail src out

/-- Running the loop over any leading patch lines either reaches the rest of
the patch in some state or has already failed with the ordering error (the
only error the applier has). -/
theorem applyLoop_reach (original : List Line) : ∀ (p tail : List Line)
    (mode : Mode) (src : Nat) (out : List Line),
    (∃ mode' src' out', applyLoop original (p ++ tail) mode src out =
      applyLoop original tail mode' src' out') ∨
    applyLoop original (p ++ tail) mode src out = .error .outOfOrderHunk := by
  intro p
  induction p with
  | nil => intro tail mode src out; exact Or.inl ⟨mode, src, out, rfl⟩
  | cons l p' ih =>
    intro tail mode src out
    rw [List.cons_append]
    cases hparse : parseHunkHeader l with
    | some g =>
      by_cases hlt : g.oldStart - 1 < src
      · right
        simp only [applyLoop, hparse]
        rw [if_pos hlt]
      · simp only [applyLoop, hparse]
        rw [if_neg hlt]
        exact ih tail _ _ _
    | none =>
      cases mode with
      | scan =>
        simp only [applyLoop, hparse]
        exact ih tail _ _ _
      | body =>
        simp only [applyLoop, hparse]
        split_ifs <;> exact ih tail _ _ _

/-- A hunk body free of header lines whose replay leaves the cursor past the
following header's target makes the loop fail with the ordering error. -/
theorem applyLoop_body_outOfOrder (original : List Line) : ∀ (body : List Line),
    (∀ l ∈ body, parseHunkHeader l = none) → ∀ (h2 : Line) (g2 : HunkHeader)
    (rest : List Line) (src : Nat) (out : List Line),
    parseHunkHeader h2 = some g2 →
    g2.oldStart - 1 < cursorAfterBody src body →
    applyLoop original (body ++ h2 :: rest) .body src out =
      .error .outOfOrderHunk := by
  intro body
  induction body with
  | nil =>
    intro _ h2 g2 rest src out hg2 hlt
    rw [cursorAfterBody] at hlt
    rw [List.nil_append]
    simp only [applyLoop, hg2]
    rw [if_pos hlt]
  | cons pl body' ih =>
    intro hb h2 g2 rest src out hg2 hlt
    have hpl := hb pl (List.mem_cons_self pl body')
    have hb' : ∀ l ∈ body', parseHunkHeader l = none :=
      fun x hx => hb x (List.mem_cons_of_mem pl hx)
    rw [List.cons_append]
    simp only [cursorAfterBody, hpl] at hlt
    simp only [applyLoop, hpl]
    split_ifs at hlt ⊢ with h1 h2' h3 h4 h5
    · exact ih hb' h2 g2 rest (src + 1) _ hg2 hlt
    · exact ih hb' h2 g2 rest (src + 1) _ hg2 hlt
    · exact ih hb' h2 g2 rest src _ hg2 hlt
    · exact ih hb' h2 g2 rest src _ hg2 hlt
    · exact ih hb' h2 g2 rest src _ hg2 hlt
    · rw [applyLoop_skip_scan original body' hb' (h2 :: rest) src out]
      simp only [applyLoop, hg2]
      rw [if_pos hlt]

/-- C3, confirmed: whenever a diff block contains two consecutive hunks `h1`,
`h2` (no header line between them) and `h2`'s target `old_start - 1` is
strictly below the cursor left by replaying `h1`'s body from `h1`'s own
target, `apply_unified_diff_logic` raises the out-of-order error and yields no
output line sequence for the block. -/
theorem c3_out_of_order_hunk (original pre : List Line) (h1 : Line)
    (g1 : HunkHeader) (body1 : List Line) (h2 : Line) (g2 : HunkHeader)
    (rest : List Line) (hg1 : parseHunkHeader h1 = some g1)
    (hb : ∀ l ∈ body1, parseHunkHeader l = none)
    (hg2 : parseHunkHeader h2 = some g2)
    (hlt : g2.oldStart - 1 < cursorAfterBody (g1.oldStart - 1) body1) :
    applyUnifiedDiffLogic original (pre ++ h1 :: (body1 ++ h2 :: rest)) =
      .error .outOfOrderHunk := by
  unfold applyUnifiedDiffLogic
  rcases applyLoop_reach original pre (h1 :: (body1 ++ h2 :: rest)) .scan 0 []
    with ⟨m', s', o', heq⟩ | herr
  · rw [heq]
    simp only [applyLoop, hg1]
    by_cases hlt1 : g1.oldStart - 1 < s'
    · rw [if_pos hlt1]
    · rw [if_neg hlt1]
      exact applyLoop_body_outOfOrder original body1 hb h2 g2 rest
        (g1.oldStart - 1) _ hg2 hlt
  · exact herr

/-- C3, witness: hunk `@@ -2,2 @@` replaying two context lines leaves the
cursor at 3; a following hunk `@@ -2,1 @@` targets cursor 1 and fails. -/
theorem c3_out_of_order_hunk_witness :
    applyUnifiedDiffLogic ["a\n".toList, "b\n".toList, "c\n".toList]
      [("@@ -2,2 +2,2 @@\n").toList, " b\n".toList, " c\n".toList,
        ("@@ -2,1 +2,1 @@\n").toList] = .error .outOfOrderHunk :=
  c3_out_of_order_hunk ["a\n".toList, "b\n".toList, "c\n".toList] []
    ("@@ -2,2 +2,2 @@\n").toList ⟨2, some 2, 2, some 2⟩
    [" b\n".toList, " c\n".toList] ("@@ -2,1 +2,1 @@\n").toList
    ⟨2, some 1, 2, some 1⟩ [] rfl (by decide) rfl (by decide)

/-- Replaying a context-only block from accumulator `original.take src` can
only produce `original` itself. -/
theorem applyLoop_ctxOnly (original : List Line) : ∀ (p : List Line)
    (mode : Mode) (src : Nat) (out' : List Line),
    ctxOnlyB mode p = true →
    applyLoop original p mode src (original.take src) = .ok out' →
    out' = original := by
  intro p
  induction p with
  | nil =>
    intro mode src out' _ hok
    rw [applyLoop, List.take_append_drop] at hok
    injection hok with h
    exact h.symm
  | cons l p' ih =>
    intro mode src out' hctx hok
    cases hp : parseHunkHeader l with
    | some g =>
      simp only [ctxOnlyB, hp] at hctx
      simp only [applyLoop, hp] at hok
      by_cases hlt : g.oldStart - 1 < src
      · rw [if_pos hlt] at hok
        exact absurd hok (by simp)
      · rw [if_neg hlt] at hok
        have hacc : original.take src ++
            (original.drop src).take (g.oldStart - 1 - src) =
            original.take (g.oldStart - 1) := by
          rw [← List.take_add]
          congr 1
          omega
        rw [hacc] at hok
        exact ih .body (g.oldStart - 1) out' hctx hok
    | none =>
      cases mode with
      | scan =>
        simp only [ctxOnlyB, hp] at hctx
        simp only [applyLoop, hp] at hok
        exact ih .scan src out' hctx hok
      | body =>
        simp only [ctxOnlyB, hp] at hctx
        rw [Bool.and_eq_true] at hctx
        obtain ⟨hhead, hctx'⟩ := hctx
        have hh := of_decide_eq_true hhead
        simp only [applyLoop, hp, hh] at hok
        rw [if_pos trivial] at hok
        have hacc : original.take src ++ (original.drop src).take 1 =
            original.take (src + 1) := (List.take_add original src 1).symm
        rw [hacc] at hok
        exact ih .body (src + 1) out' hctx' hok

/-- C4, counterexample: a context-only diff block (every hunk body line is a
`Context` line) whose hunks are out of order does not return the original —
it fails with the ordering error and returns no line sequence at all, so the
claim's universal `apply(original, hunks) = original` is false as stated. -/
theorem c4_context_preservation_counterexample :
    ctxOnlyB .scan [("@@ -3,1 +3,1 @@\n").toList, " x\n".toList,
      ("@@ -1,1 +1,1 @@\n").toList] = true ∧
    applyUnifiedDiffLogic ["a\n".toList]
      [("@@ -3,1 +3,1 @@\n").toList, " x\n".toList,
        ("@@ -1,1 +1,1 @@\n").toList] = .error .outOfOrderHunk ∧
    ∀ out : List Line,
      (Except.error PatchError.outOfOrderHunk :
        Except PatchError (List Line)) ≠ .ok out :=
  ⟨rfl, rfl, fun _ h => Except.noConfusion h⟩

/-- C4, amended: whenever a context-only diff block is applied *successfully*
(no out-of-order failure), the result equals the original line sequence;
out-of-order context-only blocks instead fail with `OutOfOrderHunk`. -/
theorem c4_context_preservation_amended (original p out : List Line)
    (hctx : ctxOnlyB .scan p = true)
    (hok : applyUnifiedDiffLogic original p = .ok out) : out = original :=
  applyLoop_ctxOnly original p .scan 0 out hctx hok

/-- C4, witness for the amended theorem, on an in-order context-only block. -/
theorem c4_context_preservation_witness :
    (["a\n".toList, "b\n".toList] : List Line) = ["a\n".toList, "b\n".toList] :=
  c4_context_preservation_amended ["a\n".toList, "b\n".toList]
    [("@@ -1,2 +1,2 @@\n").toList, " a\n".toList, " b\n".toList]
    ["a\n".toList, "b\n".toList] rfl rfl

/-- Pointwise `headerEquiv` patch texts drive the applier identically. -/
theorem applyLoop_headerEquiv (original : List Line) : ∀ (p1 p2 : List Line),
    List.Forall₂ headerEquiv p1 p2 → ∀ mode src out,
    applyLoop original p1 mode src out =
      applyLoop original p2 mode src out := by
  intro p1 p2 hfa
  induction hfa with
  | nil => intro mode src out; rfl
  | @cons l1 l2 t1 t2 hR htail ih =>
    intro mode src out
    rcases hR with rfl | ⟨g1, g2, hp1, hp2, hos⟩
    · cases hp : parseHunkHeader l1 with
      | some g =>
        simp only [applyLoop, hp]
        by_cases hlt : g.oldStart - 1 < src
        · rw [if_pos hlt, if_pos hlt]
        · rw [if_neg hlt, if_neg hlt]
          exact ih _ _ _
      | none =>
        cases mode with
        | scan =>
          simp only [applyLoop, hp]
          exact ih _ _ _
        | body =>
          simp only [applyLoop, hp]
          split_ifs <;> exact ih _ _ _
    · simp only [applyLoop, hp1, hp2]
      rw [hos]
      by_cases hlt : g2.oldStart - 1 < src
      · rw [if_pos hlt, if_pos hlt]
      · rw [if_neg hlt, if_neg hlt]
        exact ih _ _ _

/-- C10, confirmed: the applier reads nothing of a hunk header but its
`old_start`.  Two patch texts whose lines agree except that header lines may
differ in `old_count`, `new_start` or `new_count` (captured by `headerEquiv`:
equal lines, or both headers with equal `old_start`) produce identical results
— the same output, or the same failure. -/
theorem c10_header_fields_irrelevant (original p1 p2 : List Line)
    (h : List.Forall₂ headerEquiv p1 p2) :
    applyUnifiedDiffLogic original p1 = applyUnifiedDiffLogic original p2 :=
  applyLoop_headerEquiv original p1 p2 h .scan 0 []

/-- C10, witness: changing `old_count`/`new_start`/`new_count` of a header
leaves the result unchanged. -/
theorem c10_header_fields_witness :
    applyUnifiedDiffLogic ["a\n".toList, "b\n".toList, "c\n".toList]
      [("@@ -2,1 +5,1 @@\n").toList, "-b\n".toList] =
    applyUnifiedDiffLogic ["a\n".toList, "b\n".toList, "c\n".toList]
      [("@@ -2,9 +1,4 @@\n").toList, "-b\n".toList] :=
  c10_header_fields_irrelevant _ _ _
    (List.Forall₂.cons
      (Or.inr ⟨⟨2, some 1, 5, some 1⟩, ⟨2, some 9, 1, some 4⟩, rfl, rfl, rfl⟩)
      (List.Forall₂.cons (Or.inl rfl) List.Forall₂.nil))

/-- A successful case-insensitive strip determines the lowercased line up to
the stripped keyword. -/
theorem stripCI_eq (ks : List Char) : ∀ (w r : List Char),
    stripCI ks w = some r →
    w.map Char.toLower = ks ++ r.map Char.toLower := by
  induction ks with
  | nil =>
    intro w r h
    rw [stripCI] at h
    injection h with h
    rw [h]
    rfl
  | cons k ks ih =>
    intro w r h
    cases w with
    | nil =>
      rw [stripCI] at h
      exact Option.noConfusion h
    | cons c cs =>
      rw [stripCI] at h
      split_ifs at h with hc
      · rw [List.map_cons, ih cs r h, hc]
        rfl

/-- Two lists agreeing as concatenations agree at every index inside both
left parts. -/
theorem append_inj_at (k1 k2 t1 t2 : List Char) (i : Nat)
    (h : k1 ++ t1 = k2 ++ t2) (h1 : i < k1.length) (h2 : i < k2.length) :
    k1[i]? = k2[i]? := by
  have e1 : (k1 ++ t1)[i]? = k1[i]? := List.getElem?_append_left h1
  have e2 : (k2 ++ t2)[i]? = k2[i]? := List.getElem?_append_left h2
  rw [← e1, ← e2, h]

/-- Two keywords differing at some index cannot both strip from the same
line. -/
theorem stripCI_disjoint (k1 k2 r r2 s : List Char) (i : Nat)
    (h1 : stripCI k1 r = some r2) (h2 : stripCI k2 r = some s)
    (hi1 : i < k1.length) (hi2 : i < k2.length)
    (hne : k1[i]? ≠ k2[i]?) : False := by
  have m1 := stripCI_eq k1 r r2 h1
  have m2 := stripCI_eq k2 r s h2
  rw [m1] at m2
  exact hne (append_inj_at k1 k2 _ _ i m2 hi1 hi2)

/-- A matching start marker exposes its keyword strip. -/
theorem markerPath_strip (kw : List Char) (l : Line) (p : Line)
    (h : markerPath kw l = some p) :
    ∃ r r2, afterHashes l = some r ∧ stripCI kw r = some r2 := by
  cases ha : afterHashes l with
  | none =>
    simp only [markerPath, ha] at h
    exact Option.noConfusion h
  | some r =>
    cases hs : stripCI kw r with
    | none =>
      simp only [markerPath, ha, hs] at h
      exact Option.noConfusion h
    | some r2 => exact ⟨r, r2, rfl, hs⟩

/-- A `patch-start`/`replace-start` marker line never matches `END_RE`: the
keywords disagree case-insensitively before any of them ends. -/
theorem start_not_end (l : Line) (hs : isStartMarker l = true) :
    isEndMarker l = false := by
  rw [isStartMarker, Bool.or_eq_true] at hs
  cases ha : afterHashes l with
  | none => simp [isEndMarker, ha]
  | some r =>
    simp only [isEndMarker, ha]
    cases hpe : stripCI ("patch-end").toList r with
    | some s =>
      exfalso
      cases hs with
      | inl h1 =>
        obtain ⟨p, hp⟩ := Option.isSome_iff_exists.mp h1
        obtain ⟨r', r2, ha', hstrip⟩ := markerPath_strip _ _ _ hp
        rw [ha] at ha'
        injection ha' with ha'
        subst ha'
        exact stripCI_disjoint kwPatchStart ("patch-end").toList r r2 s 6
          hstrip hpe (by decide) (by decide) (by decide)
      | inr h2 =>
        obtain ⟨p, hp⟩ := Option.isSome_iff_exists.mp h2
        obtain ⟨r', r2, ha', hstrip⟩ := markerPath_strip _ _ _ hp
        rw [ha] at ha'
        injection ha' with ha'
        subst ha'
        exact stripCI_disjoint kwReplaceStart ("patch-end").toList r r2 s 0
          hstrip hpe (by decide) (by decide) (by decide)
    | none =>
      cases hre : stripCI ("replace-end").toList r with
      | some s =>
        exfalso
        cases hs with
        | inl h1 =>
          obtain ⟨p, hp⟩ := Option.isSome_iff_exists.mp h1
          obtain ⟨r', r2, ha', hstrip⟩ := markerPath_strip _ _ _ hp
          rw [ha] at ha'
          injection ha' with ha'
          subst ha'
          exact stripCI_disjoint kwPatchStart ("replace-end").toList r r2 s 0
            hstrip hre (by decide) (by decide) (by decide)
        | inr h2 =>
          obtain ⟨p, hp⟩ := Option.isSome_iff_exists.mp h2
          obtain ⟨r', r2, ha', hstrip⟩ := markerPath_strip _ _ _ hp
          rw [ha] at ha'
          injection ha' with ha'
          subst ha'
          exact stripCI_disjoint kwReplaceStart ("replace-end").toList r r2 s 8
            hstrip hre (by decide) (by decide) (by decide)
      | none => rfl

/-- A cleanly tokenized prefix composes: appending further input continues
the scan from where the prefix ended, keeping the already emitted blocks. -/
theorem tokLoop_append : ∀ (pre : List Line) (mode : TokMode)
    (bs : List PatchBlock) (post : List Line), tokLoop pre mode = (bs, none) →
    tokLoop (pre ++ post) mode =
      (bs ++ (tokLoop post .scan).1, (tokLoop post .scan).2) := by
  intro pre
  induction pre with
  | nil =>
    intro mode bs post h
    cases mode with
    | scan =>
      rw [tokLoop, Prod.mk.injEq] at h
      obtain ⟨h1, -⟩ := h
      subst h1
      simp
    | inBlock b p acc =>
      rw [tokLoop, Prod.mk.injEq] at h
      exact absurd h.2 (by simp)
  | cons l pre' ih =>
    intro mode bs post h
    rw [List.cons_append]
    cases mode with
    | scan =>
      cases h1 : markerPath kwPatchStart l with
      | some p =>
        simp only [tokLoop, h1] at h ⊢
        exact ih _ _ post h
      | none =>
        cases h2 : markerPath kwReplaceStart l with
        | some p =>
          simp only [tokLoop, h1, h2] at h ⊢
          exact ih _ _ post h
        | none =>
          cases h3 : markerPath kwDelete l with
          | some p =>
            simp only [tokLoop, h1, h2, h3] at h ⊢
            obtain ⟨bs', e', hrec⟩ :
                ∃ bs' e', tokLoop pre' TokMode.scan = (bs', e') := ⟨_, _, rfl⟩
            rw [hrec] at h
            rw [consBlock, Prod.mk.injEq] at h
            obtain ⟨hbs, he⟩ := h
            subst hbs
            subst he
            rw [ih .scan bs' post hrec, consBlock]
            simp
          | none =>
            simp only [tokLoop, h1, h2, h3] at h ⊢
            exact ih _ _ post h
    | inBlock b p acc =>
      cases he : isEndMarker l with
      | true =>
        simp only [tokLoop, he, if_true] at h ⊢
        obtain ⟨bs', e', hrec⟩ :
            ∃ bs' e', tokLoop pre' TokMode.scan = (bs', e') := ⟨_, _, rfl⟩
        rw [hrec] at h
        rw [consBlock, Prod.mk.injEq] at h
        obtain ⟨hbs, he'⟩ := h
        subst hbs
        subst he'
        rw [ih .scan bs' post hrec, consBlock]
        simp
      | false =>
        simp only [tokLoop, he, Bool.false_eq_true, if_false] at h ⊢
        exact ih _ _ post h

/-- A start marker with no later end marker strands the tokenizer: from any
mode — and from inside an unterminated block — the pass ends in the
unterminated-block error. -/
theorem tokLoop_stuck : ∀ (ls : List Line) (mode : TokMode),
    (unterminatedAfter ls ∨
      (mode ≠ .scan ∧ ∀ l ∈ ls, isEndMarker l = false)) →
    (tokLoop ls mode).2 = some .unterminatedBlock := by
  intro ls
  induction ls with
  | nil =>
    intro mode h
    rcases h with ⟨a, m, c, habs, -, -⟩ | ⟨hmode, -⟩
    · cases a <;> simp at habs
    · cases mode with
      | scan => exact absurd rfl hmode
      | inBlock b p acc => rfl
  | cons l rest ih =>
    intro mode h
    cases mode with
    | scan =>
      rcases h with ⟨a, m, c, heq, hm, hc⟩ | ⟨hmode, -⟩
      · cases a with
        | nil =>
          rw [List.nil_append] at heq
          injection heq with h1 h2
          subst h1
          subst h2
          cases hpp : markerPath kwPatchStart l with
          | some q =>
            simp only [tokLoop, hpp]
            exact ih (.inBlock true q []) (Or.inr ⟨nofun, hc⟩)
          | none =>
            rw [isStartMarker, Bool.or_eq_true] at hm
            rcases hm with h1 | h2
            · rw [hpp] at h1
              exact absurd h1 (by simp)
            · obtain ⟨q, hq⟩ := Option.isSome_iff_exists.mp h2
              simp only [tokLoop, hpp, hq]
              exact ih (.inBlock false q []) (Or.inr ⟨nofun, hc⟩)
        | cons x a' =>
          rw [List.cons_append] at heq
          injection heq with h1 h2
          subst h1
          have hrest : unterminatedAfter rest := ⟨a', m, c, h2, hm, hc⟩
          cases hpp : markerPath kwPatchStart l with
          | some q =>
            simp only [tokLoop, hpp]
            exact ih _ (Or.inl hrest)
          | none =>
            cases hrr : markerPath kwReplaceStart l with
            | some q =>
              simp only [tokLoop, hpp, hrr]
              exact ih _ (Or.inl hrest)
            | none =>
              cases hdd : markerPath kwDelete l with
              | some q =>
                simp only [tokLoop, hpp, hrr, hdd]
                exact ih _ (Or.inl hrest)
              | none =>
                simp only [tokLoop, hpp, hrr, hdd]
                exact ih _ (Or.inl hrest)
      · exact absurd rfl hmode
    | inBlock b p acc =>
      rcases h with ⟨a, m, c, heq, hm, hc⟩ | ⟨-, hnoend⟩
      · cases a with
        | nil =>
          rw [List.nil_append] at heq
          injection heq with h1 h2
          subst h1
          subst h2
          have hne : isEndMarker l = false := start_not_end l hm
          simp only [tokLoop, hne, Bool.false_eq_true, if_false]
          exact ih (.inBlock b p (acc ++ [l])) (Or.inr ⟨nofun, hc⟩)
        | cons x a' =>
          rw [List.cons_append] at heq
          injection heq with h1 h2
          subst h1
          have hrest : unterminatedAfter rest := ⟨a', m, c, h2, hm, hc⟩
          cases he : isEndMarker l with
          | true =>
            simp only [tokLoop, he, if_true]
            exact ih _ (Or.inl hrest)
          | false =>
            simp only [tokLoop, he, Bool.false_eq_true, if_false]
            exact ih _ (Or.inl hrest)
      · have hl : isEndMarker l = false := hnoend l (List.mem_cons_self l rest)
        simp only [tokLoop, hl, Bool.false_eq_true, if_false]
        exact ih _
          (Or.inr ⟨nofun, fun x hx => hnoend x (List.mem_cons_of_mem l hx)⟩)

/-- C8, confirmed: if the input continues a cleanly tokenized prefix with a
`patch-start`/`replace-start` marker that is never followed by a terminator
line, the tokenization pass fails with the unterminated-block error, while
every block emitted before that marker (from the prefix and from the suffix
before the marker) is still emitted. -/
theorem c8_unterminated_block (pre post : List Line) (bs : List PatchBlock)
    (hpre : tokenize pre = (bs, none)) (hpost : unterminatedAfter post) :
    tokenize (pre ++ post) =
      (bs ++ (tokenize post).1, some .unterminatedBlock) := by
  unfold tokenize at hpre ⊢
  rw [tokLoop_append pre .scan bs post hpre,
    tokLoop_stuck post .scan (Or.inl hpost)]

/-- C8, witness: a complete `delete` block followed by the spec's unterminated
example (`## patch-start: f.txt` with no `## patch-end`). -/
theorem c8_unterminated_block_witness :
    tokenize (["## delete: a\n".toList] ++
      ["## patch-start: f.txt\n".toList, ("@@ -1,1 +1,1 @@\n").toList]) =
      ([PatchBlock.delete "a".toList] ++
        (tokenize ["## patch-start: f.txt\n".toList,
          ("@@ -1,1 +1,1 @@\n").toList]).1,
        some .unterminatedBlock) :=
  c8_unterminated_block _ _ _ rfl
    ⟨[], "## patch-start: f.txt\n".toList, [("@@ -1,1 +1,1 @@\n").toList],
      rfl, rfl, by decide⟩

end AiPatch
